import Mathlib

/-!
Verification of the aggregation-and-artifact pipeline of
`report/htmlreportcreator.py` (repostat).

The Python code is shallowly embedded: pandas data frames become lists of
named columns, dictionaries become association lists (iteration order =
insertion order), Python exceptions become an explicit error type, and the
filesystem is an explicit list of existing paths.  Machine arithmetic is on
`Nat`/`Int` (commit counts are non-negative integers; the palette-index
computation `int(float(val) / max_val * (len - 1))` is modelled by exact
arithmetic, which agrees with the float computation on all inputs used in
witnesses and counterexamples below).
-/

/-- Python exceptions raised by the embedded fragments. -/
inductive PyError where
  | ZeroDivisionError
  | IndexError
  | FileExistsError
deriving Repr, DecidableEq

/-! ## Cumulative sums and pointwise column arithmetic (pandas `cumsum`, `sum(axis=1)`) -/

/-- Running cumulative sum starting from accumulator `acc` (pandas `Series.cumsum`). -/
def cumsumFrom (acc : Nat) : List Nat → List Nat
  | [] => []
  | x :: xs => (acc + x) :: cumsumFrom (acc + x) xs

/-- pandas `cumsum` of one column. -/
def cumsum (xs : List Nat) : List Nat := cumsumFrom 0 xs

/-- Pointwise addition of two aligned columns. -/
def addPointwise (a b : List Nat) : List Nat := List.zipWith (· + ·) a b

/-- pandas `DataFrame.sum(axis=1)` over a frame with `n` rows: sum the columns
pointwise; summing zero columns yields the all-zero column of the frame's index
length. -/
def sumColumns (n : Nat) (cols : List (List Nat)) : List Nat :=
  cols.foldr addPointwise (List.replicate n 0)

/-! ## Python slice semantics (`xs[:k]`, `xs[k:]` for possibly negative `k`) -/

/-- Python `xs[:k]` for an `int` bound `k` (negative `k` counts from the end). -/
def pySliceTo {α : Type} (k : Int) (xs : List α) : List α :=
  if 0 ≤ k then xs.take k.toNat else xs.take (xs.length - (-k).toNat)

/-- Python `xs[k:]` for an `int` bound `k` (negative `k` counts from the end). -/
def pySliceFrom {α : Type} (k : Int) (xs : List α) : List α :=
  if 0 ≤ k then xs.drop k.toNat else xs.drop (xs.length - (-k).toNat)

/-! ## ContributorSeries and `_squash_authors_history` -/

/-- A per-contributor time series: a data frame with `numPeriods` rows and one
column per contributor.  The column order is the externally supplied ranking by
total commit count (descending), exactly the order
`authors.sort(by='commits_count').names()` yields in the source. -/
structure ContributorSeries where
  numPeriods : Nat
  entries : List (String × List Nat)
deriving Repr, DecidableEq

/-- Well-formedness: every column has the frame's index length. -/
def ContributorSeries.wf (s : ContributorSeries) : Prop :=
  ∀ e ∈ s.entries, e.2.length = s.numPeriods

instance (s : ContributorSeries) : Decidable s.wf := by
  unfold ContributorSeries.wf; infer_instance

/-- Embedding of `HTMLReportCreator._squash_authors_history`: split the ranked
columns at `max_authors_count` by Python slice semantics, take the running
cumulative sum of each retained column, sum the remaining columns pointwise and
cumulate that into a final synthetic `"Others"` column. -/
def squash_authors_history (s : ContributorSeries) (max_authors_count : Int) :
    List (String × List Nat) :=
  let most_productive_authors := pySliceTo max_authors_count s.entries
  let rest_authors := pySliceFrom max_authors_count s.entries
  (most_productive_authors.map (fun e => (e.1, cumsum e.2))) ++
    [("Others", cumsum (sumColumns s.numPeriods (rest_authors.map (fun e => e.2))))]

/-! ### Arithmetic lemmas for the rollup invariant -/

theorem cumsumFrom_length (acc : Nat) (xs : List Nat) :
    (cumsumFrom acc xs).length = xs.length := by
  induction xs generalizing acc with
  | nil => rfl
  | cons x xs ih => simp [cumsumFrom, ih]

theorem cumsum_length (xs : List Nat) : (cumsum xs).length = xs.length :=
  cumsumFrom_length 0 xs

theorem addPointwise_length (a b : List Nat) :
    (addPointwise a b).length = min a.length b.length := by
  simp [addPointwise]

theorem sumColumns_nil (n : Nat) : sumColumns n [] = List.replicate n 0 := rfl

theorem sumColumns_cons (n : Nat) (c : List Nat) (cs : List (List Nat)) :
    sumColumns n (c :: cs) = addPointwise c (sumColumns n cs) := rfl

theorem sumColumns_length (n : Nat) (cols : List (List Nat))
    (h : ∀ c ∈ cols, c.length = n) : (sumColumns n cols).length = n := by
  induction cols with
  | nil => simp [sumColumns_nil]
  | cons c cs ih =>
      have hc : c.length = n := h c (by simp)
      have hcs : (sumColumns n cs).length = n := ih (fun d hd => h d (by simp [hd]))
      rw [sumColumns_cons, addPointwise_length, hc, hcs, Nat.min_self]

theorem addPointwise_assoc (a b c : List Nat) :
    addPointwise (addPointwise a b) c = addPointwise a (addPointwise b c) := by
  induction a generalizing b c with
  | nil => simp [addPointwise]
  | cons x xs ih =>
      cases b with
      | nil => simp [addPointwise]
      | cons y ys =>
          cases c with
          | nil => simp [addPointwise]
          | cons z zs =>
              simp [addPointwise, List.zipWith] at *
              exact ⟨by omega, ih ys zs⟩

theorem addPointwise_zero_left (a : List Nat) :
    addPointwise (List.replicate a.length 0) a = a := by
  induction a with
  | nil => rfl
  | cons x xs ih => simp [addPointwise, List.replicate] at *; exact ih

theorem addPointwise_zero_right (a : List Nat) :
    addPointwise a (List.replicate a.length 0) = a := by
  induction a with
  | nil => rfl
  | cons x xs ih => simp [addPointwise, List.replicate] at *; exact ih

theorem addPointwise_zero_left_of_length (n : Nat) (a : List Nat) (h : a.length = n) :
    addPointwise (List.replicate n 0) a = a := by
  rw [← h]; exact addPointwise_zero_left a

theorem addPointwise_zero_right_of_length (n : Nat) (a : List Nat) (h : a.length = n) :
    addPointwise a (List.replicate n 0) = a := by
  rw [← h]; exact addPointwise_zero_right a

theorem sumColumns_singleton (n : Nat) (x : List Nat) (h : x.length = n) :
    sumColumns n [x] = x := by
  rw [sumColumns_cons, sumColumns_nil]
  exact addPointwise_zero_right_of_length n x h

theorem cumsumFrom_addPointwise (a : List Nat) :
    ∀ (b : List Nat) (x y : Nat), a.length = b.length →
      cumsumFrom (x + y) (addPointwise a b) =
        addPointwise (cumsumFrom x a) (cumsumFrom y b) := by
  induction a with
  | nil =>
      intro b x y h
      cases b with
      | nil => rfl
      | cons _ _ => simp at h
  | cons u us ih =>
      intro b x y h
      cases b with
      | nil => simp at h
      | cons v vs =>
          simp only [addPointwise, List.zipWith, cumsumFrom]
          have h1 : x + y + (u + v) = (x + u) + (y + v) := by omega
          rw [h1]
          have h2 : us.length = vs.length := by simpa using h
          have := ih vs (x + u) (y + v) h2
          simp only [addPointwise] at this
          rw [this]

theorem cumsum_addPointwise (a b : List Nat) (h : a.length = b.length) :
    cumsum (addPointwise a b) = addPointwise (cumsum a) (cumsum b) := by
  have := cumsumFrom_addPointwise a b 0 0 h
  simpa [cumsum] using this

theorem cumsumFrom_replicate_zero (acc n : Nat) :
    cumsumFrom acc (List.replicate n 0) = List.replicate n acc := by
  induction n generalizing acc with
  | zero => rfl
  | succ m ih => simp [List.replicate, cumsumFrom, ih]

theorem cumsum_replicate_zero (n : Nat) :
    cumsum (List.replicate n 0) = List.replicate n 0 :=
  cumsumFrom_replicate_zero 0 n

theorem sumColumns_map_cumsum (n : Nat) (cols : List (List Nat))
    (h : ∀ c ∈ cols, c.length = n) :
    sumColumns n (cols.map cumsum) = cumsum (sumColumns n cols) := by
  induction cols with
  | nil => rw [List.map_nil, sumColumns_nil, cumsum_replicate_zero]
  | cons c cs ih =>
      have hc : c.length = n := h c (by simp)
      have hcs : ∀ d ∈ cs, d.length = n := fun d hd => h d (by simp [hd])
      have hlen : (sumColumns n cs).length = n := sumColumns_length n cs hcs
      rw [List.map_cons, sumColumns_cons, sumColumns_cons, ih hcs,
        ← cumsum_addPointwise c (sumColumns n cs) (by rw [hc, hlen])]

theorem sumColumns_append (n : Nat) (c1 c2 : List (List Nat))
    (h2 : ∀ c ∈ c2, c.length = n) :
    sumColumns n (c1 ++ c2) = addPointwise (sumColumns n c1) (sumColumns n c2) := by
  induction c1 with
  | nil =>
      have hlen : (sumColumns n c2).length = n := sumColumns_length n c2 h2
      rw [List.nil_append, sumColumns_nil]
      exact (addPointwise_zero_left_of_length n _ hlen).symm
  | cons c cs ih =>
      rw [List.cons_append, sumColumns_cons, sumColumns_cons, ih, ← addPointwise_assoc]

theorem pySlice_append {α : Type} (k : Int) (xs : List α) :
    pySliceTo k xs ++ pySliceFrom k xs = xs := by
  unfold pySliceTo pySliceFrom
  by_cases h : 0 ≤ k <;> simp [h, List.take_append_drop]

theorem pySliceTo_sublist {α : Type} (k : Int) (xs : List α) :
    (pySliceTo k xs).Sublist xs := by
  unfold pySliceTo
  by_cases h : 0 ≤ k <;> simp [h, List.take_sublist]

theorem pySliceFrom_sublist {α : Type} (k : Int) (xs : List α) :
    (pySliceFrom k xs).Sublist xs := by
  unfold pySliceFrom
  by_cases h : 0 ≤ k <;> simp [h, List.drop_sublist]

/-- The rollup invariant, for arbitrary (also negative) `max_authors_count`:
the pointwise sum of all result columns (the retained cumulative columns plus
the `"Others"` column) equals the cumulative sum of the pointwise total of the
original series. -/
theorem squash_sum (s : ContributorSeries) (k : Int) (hwf : s.wf) :
    sumColumns s.numPeriods ((squash_authors_history s k).map (fun e => e.2)) =
      cumsum (sumColumns s.numPeriods (s.entries.map (fun e => e.2))) := by
  set T := s.numPeriods with hT
  have htop : ∀ c ∈ (pySliceTo k s.entries).map (fun e => e.2), c.length = T := by
    intro c hc
    rcases List.mem_map.mp hc with ⟨e, he, rfl⟩
    exact hwf e ((pySliceTo_sublist k s.entries).subset he)
  have hrest : ∀ c ∈ (pySliceFrom k s.entries).map (fun e => e.2), c.length = T := by
    intro c hc
    rcases List.mem_map.mp hc with ⟨e, he, rfl⟩
    exact hwf e ((pySliceFrom_sublist k s.entries).subset he)
  have hrestlen : (sumColumns T ((pySliceFrom k s.entries).map (fun e => e.2))).length = T :=
    sumColumns_length T _ hrest
  have htoplen : (sumColumns T ((pySliceTo k s.entries).map (fun e => e.2))).length = T :=
    sumColumns_length T _ htop
  calc
    sumColumns T ((squash_authors_history s k).map (fun e => e.2))
        = sumColumns T ((((pySliceTo k s.entries).map (fun e => e.2)).map cumsum) ++
            [cumsum (sumColumns T ((pySliceFrom k s.entries).map (fun e => e.2)))]) := by
          unfold squash_authors_history
          rw [List.map_append, List.map_map, List.map_map]
          rfl
    _ = addPointwise
          (sumColumns T (((pySliceTo k s.entries).map (fun e => e.2)).map cumsum))
          (sumColumns T [cumsum (sumColumns T ((pySliceFrom k s.entries).map (fun e => e.2)))]) :=
        sumColumns_append T _ _ (by
          intro c hc
          simp only [List.mem_singleton] at hc
          subst hc
          rw [cumsum_length, hrestlen])
    _ = addPointwise
          (cumsum (sumColumns T ((pySliceTo k s.entries).map (fun e => e.2))))
          (cumsum (sumColumns T ((pySliceFrom k s.entries).map (fun e => e.2)))) := by
        rw [sumColumns_map_cumsum T _ htop,
          sumColumns_singleton T _ (by rw [cumsum_length, hrestlen])]
    _ = cumsum (addPointwise
          (sumColumns T ((pySliceTo k s.entries).map (fun e => e.2)))
          (sumColumns T ((pySliceFrom k s.entries).map (fun e => e.2)))) :=
        (cumsum_addPointwise _ _ (by rw [htoplen, hrestlen])).symm
    _ = cumsum (sumColumns T (((pySliceTo k s.entries).map (fun e => e.2)) ++
          ((pySliceFrom k s.entries).map (fun e => e.2)))) := by
        rw [sumColumns_append T _ _ hrest]
    _ = cumsum (sumColumns T ((pySliceTo k s.entries ++ pySliceFrom k s.entries).map
          (fun e => e.2))) := by
        rw [List.map_append]
    _ = cumsum (sumColumns T (s.entries.map (fun e => e.2))) := by
        rw [pySlice_append]

/-- C1: for every well-formed ContributorSeries and every `topK ≥ 0`, at every
time index the pointwise sum of the retained top-K cumulative columns plus the
`"Others"` cumulative column equals the running cumulative total of the combined
original series. -/
theorem squash_authors_history_invariant (s : ContributorSeries) (k : Int)
    (hwf : s.wf) (_hk : 0 ≤ k) :
    sumColumns s.numPeriods ((squash_authors_history s k).map (fun e => e.2)) =
      cumsum (sumColumns s.numPeriods (s.entries.map (fun e => e.2))) :=
  squash_sum s k hwf

/-- The spec's own worked example: alice/bob/carl with `topK = 1`. -/
def exSeriesABC : ContributorSeries :=
  ⟨3, [("alice", [1, 2, 3]), ("bob", [0, 1, 1]), ("carl", [2, 0, 0])]⟩

theorem squash_authors_history_invariant_witness :
    sumColumns exSeriesABC.numPeriods
        ((squash_authors_history exSeriesABC 1).map (fun e => e.2)) =
      cumsum (sumColumns exSeriesABC.numPeriods
        (exSeriesABC.entries.map (fun e => e.2))) :=
  squash_authors_history_invariant exSeriesABC 1 (by decide) (by decide)

/-- C9: when the contributor count is at most `topK`, every contributor is
retained, and the result still ends with an `"Others"` bucket whose value is
zero at every time index. -/
theorem squash_authors_history_topK_ge_count (s : ContributorSeries) (k : Int)
    (h : (s.entries.length : Int) ≤ k) :
    squash_authors_history s k =
        (s.entries.map (fun e => (e.1, cumsum e.2))) ++
          [("Others", List.replicate s.numPeriods 0)] ∧
      ("Others", List.replicate s.numPeriods 0) ∈ squash_authors_history s k := by
  have hk : (0 : Int) ≤ k := le_trans (Int.natCast_nonneg _) h
  have htake : pySliceTo k s.entries = s.entries := by
    unfold pySliceTo
    rw [if_pos hk]
    exact List.take_of_length_le (by omega)
  have hdrop : pySliceFrom k s.entries = [] := by
    unfold pySliceFrom
    rw [if_pos hk]
    exact List.drop_eq_nil_of_le (by omega)
  have heq : squash_authors_history s k =
      (s.entries.map (fun e => (e.1, cumsum e.2))) ++
        [("Others", List.replicate s.numPeriods 0)] := by
    unfold squash_authors_history
    rw [htake, hdrop]
    simp only [List.map_nil, sumColumns_nil, cumsum_replicate_zero]
  exact ⟨heq, by rw [heq]; simp⟩

/-- A small two-contributor series used by witnesses and counterexamples. -/
def exSeriesAB : ContributorSeries := ⟨2, [("a", [1, 2]), ("b", [3, 4])]⟩

theorem squash_authors_history_topK_ge_count_witness :
    (squash_authors_history exSeriesAB 5 =
        (exSeriesAB.entries.map (fun e => (e.1, cumsum e.2))) ++
          [("Others", List.replicate exSeriesAB.numPeriods 0)] ∧
      ("Others", List.replicate exSeriesAB.numPeriods 0) ∈
        squash_authors_history exSeriesAB 5) :=
  squash_authors_history_topK_ge_count exSeriesAB 5 (by decide)

/-- C4 counterexample: a negative `topK` is not rejected.  The aggregator
produces an ordinary rollup result for `topK = -1` (Python slice semantics keep
all but the last contributor), so no InvalidArgument condition is signalled. -/
theorem squash_neg_topK_counterexample :
    squash_authors_history exSeriesAB (-1) = [("a", [1, 3]), ("Others", [3, 7])] := by
  decide

/-- C4 (amended): the aggregator performs no validation of `topK` and has no
failure mode at all.  A negative `topK` is interpreted by Python slice
semantics, which is equivalent to the clamped non-negative bound
`(count + topK).toNat`, and the rollup invariant still holds. -/
theorem squash_neg_topK_behavior (s : ContributorSeries) (k : Int)
    (hwf : s.wf) (hk : k < 0) :
    squash_authors_history s k =
        squash_authors_history s (((s.entries.length : Int) + k).toNat : Int) ∧
      sumColumns s.numPeriods ((squash_authors_history s k).map (fun e => e.2)) =
        cumsum (sumColumns s.numPeriods (s.entries.map (fun e => e.2))) := by
  constructor
  · have h1 : pySliceTo k s.entries =
        pySliceTo (((s.entries.length : Int) + k).toNat : Int) s.entries := by
      unfold pySliceTo
      rw [if_neg (by omega), if_pos (Int.natCast_nonneg _)]
      congr 1
      omega
    have h2 : pySliceFrom k s.entries =
        pySliceFrom (((s.entries.length : Int) + k).toNat : Int) s.entries := by
      unfold pySliceFrom
      rw [if_neg (by omega), if_pos (Int.natCast_nonneg _)]
      congr 1
      omega
    unfold squash_authors_history
    rw [h1, h2]
  · exact squash_sum s k hwf

theorem squash_neg_topK_behavior_witness :
    (squash_authors_history exSeriesAB (-1) =
        squash_authors_history exSeriesAB
          (((exSeriesAB.entries.length : Int) + (-1)).toNat : Int) ∧
      sumColumns exSeriesAB.numPeriods
          ((squash_authors_history exSeriesAB (-1)).map (fun e => e.2)) =
        cumsum (sumColumns exSeriesAB.numPeriods
          (exSeriesAB.entries.map (fun e => e.2)))) :=
  squash_neg_topK_behavior exSeriesAB (-1) (by decide) (by decide)

/-! ## ColorScaleMapper: the `to_heatmap` Jinja filter -/

/-- The `"%d, %d, %d"` formatting applied to one palette entry. -/
def heat_string (c : Nat × Nat × Nat) : String :=
  toString c.1 ++ ", " ++ toString c.2.1 ++ ", " ++ toString c.2.2

/-- Embedding of the `to_heatmap` filter
`lambda val, max_val: "%d, %d, %d" % colors[int(float(val) / max_val * (len(colors) - 1))]`.
The float expression `int(float(val) / max_val * (len - 1))` is modelled by the
exact integer `val * (len - 1) / max_val` (floor division); for `max_val = 0`
Python raises `ZeroDivisionError`, and an index beyond the palette raises
`IndexError`.  There is no `max_val == 0` guard and no clamping in the source. -/
def to_heatmap (colors : List (Nat × Nat × Nat)) (val max_val : Nat) :
    Except PyError String :=
  if max_val = 0 then .error .ZeroDivisionError
  else
    match colors[(val * (colors.length - 1)) / max_val]? with
    | some c => .ok (heat_string c)
    | none => .error .IndexError

/-- A concrete three-entry palette for counterexamples. -/
def exPalette : List (Nat × Nat × Nat) := [(0, 0, 0), (128, 128, 128), (255, 255, 255)]

/-- C2 counterexample: with `max == 0` the filter raises `ZeroDivisionError`;
it does not return the palette's first entry. -/
theorem to_heatmap_max_zero_counterexample :
    to_heatmap exPalette 3 0 = .error .ZeroDivisionError ∧
      to_heatmap exPalette 3 0 ≠ .ok (heat_string (0, 0, 0)) := by
  refine ⟨rfl, ?_⟩
  intro h
  rw [show to_heatmap exPalette 3 0 = Except.error PyError.ZeroDivisionError from rfl] at h
  exact Except.noConfusion h

/-- C2 (amended): for every value and every palette, calling the color mapper
with `max == 0` raises `ZeroDivisionError` (the division-by-zero guard the spec
describes is absent from the source). -/
theorem to_heatmap_max_zero (colors : List (Nat × Nat × Nat)) (val : Nat) :
    to_heatmap colors val 0 = .error .ZeroDivisionError := by
  rfl

/-- C3 counterexample: the palette index is not clamped, so a value above
`max` can index past the palette and raise `IndexError`: with a 3-color
palette, `value = 2`, `max = 1`, the index is `2 * 2 / 1 = 4 ≥ 3`. -/
theorem to_heatmap_no_clamp_counterexample :
    to_heatmap exPalette 2 1 = .error .IndexError := by
  rfl

/-- C3 (amended): for `max > 0` the mapper uses the palette index
`floor(value / max * (len - 1))` with no clamping.  The lookup is in bounds
whenever `value ≤ max` (and the palette is non-empty); in particular
`colorFor(max, max, palette)` is the palette's last entry.  For `value > max`
the index can exceed the palette and the lookup fails. -/
theorem to_heatmap_in_bounds (colors : List (Nat × Nat × Nat)) (val max_val : Nat)
    (hmax : 0 < max_val) (hval : val ≤ max_val) (hne : colors ≠ []) :
    (∃ c, colors[(val * (colors.length - 1)) / max_val]? = some c ∧
        to_heatmap colors val max_val = .ok (heat_string c)) ∧
      (val = max_val →
        to_heatmap colors val max_val = .ok (heat_string (colors.getLast hne))) := by
  have hlen : 0 < colors.length := List.length_pos.mpr hne
  have hidx : (val * (colors.length - 1)) / max_val < colors.length := by
    have h1 : val * (colors.length - 1) ≤ max_val * (colors.length - 1) :=
      Nat.mul_le_mul_right _ hval
    have h2 : (val * (colors.length - 1)) / max_val ≤
        (max_val * (colors.length - 1)) / max_val :=
      Nat.div_le_div_right h1
    have h3 : (max_val * (colors.length - 1)) / max_val = colors.length - 1 :=
      Nat.mul_div_cancel_left _ hmax
    omega
  have hget : colors[(val * (colors.length - 1)) / max_val]? =
      some (colors.get ⟨(val * (colors.length - 1)) / max_val, hidx⟩) := by
    rw [List.getElem?_eq_getElem hidx]
    rfl
  constructor
  · refine ⟨colors.get ⟨(val * (colors.length - 1)) / max_val, hidx⟩, hget, ?_⟩
    unfold to_heatmap
    rw [if_neg (by omega), hget]
  · intro hvm
    subst hvm
    have hix : (val * (colors.length - 1)) / val = colors.length - 1 :=
      Nat.mul_div_cancel_left _ hmax
    unfold to_heatmap
    rw [if_neg (by omega)]
    rw [hix, List.getElem?_eq_getElem (by omega)]
    have : colors.getLast hne = colors[colors.length - 1] := by
      rw [List.getLast_eq_getElem]
    rw [this]

theorem to_heatmap_in_bounds_witness :
    (∃ c, exPalette[(4 * (exPalette.length - 1)) / 4]? = some c ∧
        to_heatmap exPalette 4 4 = .ok (heat_string c)) ∧
      (4 = 4 →
        to_heatmap exPalette 4 4 = .ok (heat_string (exPalette.getLast (by decide)))) :=
  to_heatmap_in_bounds exPalette 4 4 (by decide) (by decide) (by decide)

/-! ## Authors page: the per-author dictionary (`render_authors_page`, top-authors loop) -/

/-- The per-author fields read from the statistics model
(`GitRepository.get_author`). -/
structure GitAuthor where
  commits_count : Nat
  lines_added : Nat
  lines_removed : Nat
  first_commit_date : String
  latest_commit_date : String
  contributed_days_count : Nat
  active_days_count : Nat
deriving Repr, DecidableEq

/-- One entry of the authors page `top_authors` list. -/
structure AuthorDict where
  name : String
  commits_count : Nat
  lines_added_count : Nat
  lines_removed_count : Nat
  first_commit_date : String
  latest_commit_date : String
  contributed_days_count : Nat
  active_days_count : Nat
  contribution : Option Nat
deriving Repr, DecidableEq

/-- Embedding of the `author_dict` assembly in `render_authors_page`.  The
`contribution` field mirrors
`contribution.get(author, 0) if contribution else None`:
an empty (falsy) contribution mapping yields `none` for every author; a
non-empty mapping yields `dict.get` with default `0`. -/
def author_dict (get_author : String → GitAuthor)
    (contribution : List (String × Nat)) (author : String) : AuthorDict :=
  let ga := get_author author
  { name := author
    commits_count := ga.commits_count
    lines_added_count := ga.lines_added
    lines_removed_count := ga.lines_removed
    first_commit_date := ga.first_commit_date
    latest_commit_date := ga.latest_commit_date
    contributed_days_count := ga.contributed_days_count
    active_days_count := ga.active_days_count
    contribution :=
      if contribution.isEmpty then none
      else some ((contribution.lookup author).getD 0) }

/-- Embedding of the top-authors loop
`for author in all_authors[:self.configuration['max_authors']]`. -/
def render_top_authors (all_authors : List String) (max_authors : Nat)
    (get_author : String → GitAuthor) (contribution : List (String × Nat)) :
    List AuthorDict :=
  (all_authors.take max_authors).map (author_dict get_author contribution)

/-- A fixed author record used by concrete inputs. -/
def exGitAuthor : GitAuthor :=
  ⟨5, 10, 2, "2020-01-01", "2020-02-01", 3, 4⟩

/-- C5 counterexample: with a non-empty contribution mapping that lacks the
author (`{"alice": 50}`, author `"bob"`), the assembled `contribution` field is
`some 0` — the default `0` is silently substituted — not `none`. -/
theorem contribution_missing_counterexample :
    ((render_top_authors ["bob"] 10 (fun _ => exGitAuthor) [("alice", 50)]).map
        (fun d => d.contribution)) = [some 0] ∧
      (some 0 : Option Nat) ≠ none := by
  decide

/-- C5 (amended): the `contribution` field of every assembled top-author entry
is `none` exactly when the external contribution mapping is absent (falsy);
when the mapping is non-empty, an author missing from it gets the default `0`
(not `none`), and an author present in it gets the recorded percentage. -/
theorem contribution_field_behavior (all_authors : List String) (max_authors : Nat)
    (get_author : String → GitAuthor) (contribution : List (String × Nat)) :
    ∀ d ∈ render_top_authors all_authors max_authors get_author contribution,
      (contribution = [] → d.contribution = none) ∧
      (contribution ≠ [] → contribution.lookup d.name = none →
        d.contribution = some 0) ∧
      (∀ v, contribution ≠ [] → contribution.lookup d.name = some v →
        d.contribution = some v) := by
  intro d hd
  rcases List.mem_map.mp hd with ⟨a, _, rfl⟩
  have hname : (author_dict get_author contribution a).name = a := rfl
  have hfield : (author_dict get_author contribution a).contribution =
      if contribution.isEmpty then none
      else some ((contribution.lookup a).getD 0) := rfl
  refine ⟨?_, ?_, ?_⟩
  · intro hc
    subst hc
    rfl
  · intro hc hl
    rw [hname] at hl
    rw [hfield, if_neg (by simpa [List.isEmpty_iff] using hc), hl]
    rfl
  · intro v hc hl
    rw [hname] at hl
    rw [hfield, if_neg (by simpa [List.isEmpty_iff] using hc), hl]
    rfl

theorem contribution_field_behavior_witness :
    ((fun d => (d.contribution = some 0)) (author_dict (fun _ => exGitAuthor)
      [("alice", 50)] "bob")) := by
  have h := contribution_field_behavior ["bob"] 10 (fun _ => exGitAuthor)
    [("alice", 50)] (author_dict (fun _ => exGitAuthor) [("alice", 50)] "bob")
    (by decide)
  exact h.2.1 (by decide) (by decide)

/-! ## A stable sort (Python `sorted`) and first-occurrence dedup (pandas `unique`) -/

/-- Insert `x` before the first element `y` with `le x y`. -/
def insertBy {α : Type} (le : α → α → Bool) (x : α) : List α → List α
  | [] => [x]
  | y :: ys => if le x y then x :: y :: ys else y :: insertBy le x ys

/-- Stable insertion sort; models Python's stable `sorted` for a total
preorder `le` (`le x y` = "x may come before y"). -/
def sortBy {α : Type} (le : α → α → Bool) : List α → List α
  | [] => []
  | x :: xs => insertBy le x (sortBy le xs)

theorem insertBy_perm {α : Type} (le : α → α → Bool) (x : α) (l : List α) :
    (insertBy le x l).Perm (x :: l) := by
  induction l with
  | nil => exact List.Perm.refl _
  | cons y ys ih =>
      unfold insertBy
      by_cases h : le x y = true
      · rw [if_pos h]
      · rw [if_neg h]
        exact (List.Perm.cons y ih).trans (List.Perm.swap x y ys)

theorem sortBy_perm {α : Type} (le : α → α → Bool) (l : List α) :
    (sortBy le l).Perm l := by
  induction l with
  | nil => exact List.Perm.refl _
  | cons x xs ih =>
      exact (insertBy_perm le x (sortBy le xs)).trans (List.Perm.cons x ih)

theorem insertBy_pairwise {α : Type} (le : α → α → Bool)
    (htot : ∀ a b, le a b = false → le b a = true)
    (htr : ∀ a b c, le a b = true → le b c = true → le a c = true)
    (x : α) (l : List α) (h : l.Pairwise (fun a b => le a b = true)) :
    (insertBy le x l).Pairwise (fun a b => le a b = true) := by
  induction l with
  | nil => simp [insertBy]
  | cons y ys ih =>
      rcases List.pairwise_cons.mp h with ⟨hy, hys⟩
      unfold insertBy
      by_cases hxy : le x y = true
      · rw [if_pos hxy]
        refine List.pairwise_cons.mpr ⟨?_, h⟩
        intro b hb
        rcases List.mem_cons.mp hb with hb | hb
        · subst hb; exact hxy
        · exact htr x y b hxy (hy b hb)
      · rw [if_neg hxy]
        refine List.pairwise_cons.mpr ⟨?_, ih hys⟩
        intro b hb
        have hb' : b ∈ x :: ys := (insertBy_perm le x ys).subset hb
        rcases List.mem_cons.mp hb' with hb' | hb'
        · rw [hb']
          exact htot x y (by simpa using hxy)
        · exact hy b hb'

theorem sortBy_pairwise {α : Type} (le : α → α → Bool)
    (htot : ∀ a b, le a b = false → le b a = true)
    (htr : ∀ a b c, le a b = true → le b c = true → le a c = true)
    (l : List α) : (sortBy le l).Pairwise (fun a b => le a b = true) := by
  induction l with
  | nil => simp [sortBy]
  | cons x xs ih => exact insertBy_pairwise le htot htr x (sortBy le xs) ih

/-- Sort descending by a key (Python `sorted(..., key=key, reverse=True)`,
which is stable). -/
def sortByKeyDesc {α β : Type} [LinearOrder β] (key : α → β) (l : List α) :
    List α :=
  sortBy (fun a b => decide (key b ≤ key a)) l

theorem sortByKeyDesc_perm {α β : Type} [LinearOrder β] (key : α → β)
    (l : List α) : (sortByKeyDesc key l).Perm l :=
  sortBy_perm _ l

theorem sortByKeyDesc_pairwise {α β : Type} [LinearOrder β] (key : α → β)
    (l : List α) :
    (sortByKeyDesc key l).Pairwise (fun a b => key b ≤ key a) := by
  have h := sortBy_pairwise (fun a b => decide (key b ≤ key a))
    (fun a b hab => decide_eq_true (le_of_not_le (of_decide_eq_false hab)))
    (fun a b c hab hbc =>
      decide_eq_true (le_trans (of_decide_eq_true hbc) (of_decide_eq_true hab)))
    l
  exact h.imp (fun hab => of_decide_eq_true hab)

/-- First-occurrence deduplication with an accumulator (pandas
`Index.unique`). -/
def pyUniqueAux (acc : List Nat) : List Nat → List Nat
  | [] => acc
  | x :: xs => if x ∈ acc then pyUniqueAux acc xs else pyUniqueAux (acc ++ [x]) xs

/-- pandas `unique`: distinct values in first-seen order. -/
def pyUnique (l : List Nat) : List Nat := pyUniqueAux [] l

theorem pyUniqueAux_mem (l : List Nat) :
    ∀ (acc : List Nat) (y : Nat), y ∈ pyUniqueAux acc l ↔ y ∈ acc ∨ y ∈ l := by
  induction l with
  | nil => intro acc y; simp [pyUniqueAux]
  | cons x xs ih =>
      intro acc y
      unfold pyUniqueAux
      by_cases hx : x ∈ acc
      · rw [if_pos hx, ih]
        constructor
        · rintro (h | h)
          · exact Or.inl h
          · exact Or.inr (List.mem_cons_of_mem x h)
        · rintro (h | h)
          · exact Or.inl h
          · rcases List.mem_cons.mp h with rfl | h
            · exact Or.inl hx
            · exact Or.inr h
      · rw [if_neg hx, ih]
        simp only [List.mem_append, List.mem_singleton, List.mem_cons]
        tauto

theorem pyUniqueAux_eq_append (l : List Nat) :
    ∀ acc : List Nat, l.Nodup → (∀ x ∈ l, x ∉ acc) →
      pyUniqueAux acc l = acc ++ l := by
  induction l with
  | nil => intro acc _ _; simp [pyUniqueAux]
  | cons x xs ih =>
      intro acc hnd hdisj
      unfold pyUniqueAux
      rw [if_neg (hdisj x (by simp))]
      rw [ih (acc ++ [x]) (List.Nodup.of_cons hnd) ?_]
      · simp
      · intro y hy
        simp only [List.mem_append, List.mem_singleton]
        rintro (h | rfl)
        · exact hdisj y (List.mem_cons_of_mem x hy) h
        · exact (List.nodup_cons.mp hnd).1 hy

theorem pyUnique_eq_self (l : List Nat) (h : l.Nodup) : pyUnique l = l := by
  have := pyUniqueAux_eq_append l [] h (by simp)
  simpa [pyUnique] using this

theorem pyUnique_mem (l : List Nat) (y : Nat) : y ∈ pyUnique l ↔ y ∈ l := by
  have := pyUniqueAux_mem l [] y
  simpa [pyUnique] using this

/-! ## Authors page: month-by-month and year-by-year leaderboards -/

/-- One leaderboard entry of the authors page (`project_data['months']` /
`project_data['years']` items). -/
structure PeriodEntry where
  date : Nat
  top_author_name : String
  top_author_commits : Nat
  next_top_authors : String
  all_commits_count : Nat
  total_authors_count : Nat
deriving Repr, DecidableEq

/-- The by-period author ranking (`get_authors_ranking_by_month/year`),
modelled grouped: one `(period, ranking)` pair per period, the ranking being
the externally ranked `(author, commits)` list for that period.
`raw_authors_data.loc[p]` becomes an association-list lookup. -/
def rankingLookup (data : List (Nat × List (String × Nat))) (p : Nat) :
    List (String × Nat) :=
  (data.lookup p).getD []

/-- The distinct level-0 index values sorted descending
(`index.get_level_values(0).unique().sort_values(ascending=False)`). -/
def orderedPeriodsDesc (data : List (Nat × List (String × Nat))) : List Nat :=
  sortByKeyDesc (fun p => p) (pyUnique (data.map (fun x => x.1)))

/-- One leaderboard entry: top author name and commit count
(`ranking.index[0]`, `ranking[0]`), the names of the next `nextCount` ranked
authors joined with `", "`, the period's total commit count (`ranking.sum()`)
and its distinct-author count (`ranking.size`).  (`pandas` raises on an empty
ranking; rankings are non-empty by construction, hence the defaults.) -/
def mkPeriodEntry (p : Nat) (ranking : List (String × Nat)) (nextCount : Nat) :
    PeriodEntry :=
  { date := p
    top_author_name := (ranking.headD ("", 0)).1
    top_author_commits := (ranking.headD ("", 0)).2
    next_top_authors :=
      String.intercalate ", " (((ranking.drop 1).take nextCount).map (fun x => x.1))
    all_commits_count := (ranking.map (fun x => x.2)).sum
    total_authors_count := ranking.length }

/-- The month loop of `render_authors_page`: most-recent-first periods,
truncated to `max_authors_of_months`, next-top display built from
`index[1:5]` (the next four). -/
def render_months_summary (data : List (Nat × List (String × Nat)))
    (max_authors_of_months : Nat) : List PeriodEntry :=
  ((orderedPeriodsDesc data).take max_authors_of_months).map
    (fun p => mkPeriodEntry p (rankingLookup data p) 4)

/-- The year loop of `render_authors_page`: all periods most-recent-first,
next-top display built from `index[1:max_top_authors_index]` where
`max_top_authors_index = authors_top + 1` (so the next `authors_top`). -/
def render_years_summary (data : List (Nat × List (String × Nat)))
    (authors_top : Nat) : List PeriodEntry :=
  (orderedPeriodsDesc data).map
    (fun p => mkPeriodEntry p (rankingLookup data p) authors_top)

/-- What the spec says one leaderboard entry holds, for a given underlying
ranking and next-top width. -/
def entry_matches (e : PeriodEntry) (ranking : List (String × Nat))
    (nextCount : Nat) : Prop :=
  ∃ top rest, ranking = top :: rest ∧
    e.top_author_name = top.1 ∧
    e.top_author_commits = top.2 ∧
    e.next_top_authors =
      String.intercalate ", " ((rest.take nextCount).map (fun x => x.1)) ∧
    e.all_commits_count = top.2 + (rest.map (fun x => x.2)).sum ∧
    e.total_authors_count = rest.length + 1

theorem lookup_eq_of_mem {α β : Type} [BEq α] [LawfulBEq α] (data : List (α × β))
    (hkeys : (data.map (fun x => x.1)).Nodup) (p : α) (r : β)
    (h : (p, r) ∈ data) : data.lookup p = some r := by
  induction data with
  | nil => simp at h
  | cons hd tl ih =>
      obtain ⟨q, s⟩ := hd
      rw [List.map_cons, List.nodup_cons] at hkeys
      rcases List.mem_cons.mp h with heq | hmem
      · injection heq with hp hr
        subst hp
        subst hr
        simp [List.lookup]
      · have hpq : p ≠ q := by
          rintro rfl
          exact hkeys.1 (List.mem_map.mpr ⟨(p, r), hmem, rfl⟩)
        have hbeq : (p == q) = false := beq_eq_false_iff_ne.mpr hpq
        simp [List.lookup, hbeq]
        exact ih hkeys.2 hmem

theorem map_date_mkPeriodEntry (data : List (Nat × List (String × Nat)))
    (n : Nat) (ps : List Nat) :
    ((ps.map (fun p => mkPeriodEntry p (rankingLookup data p) n)).map
      (fun e => e.date)) = ps := by
  induction ps with
  | nil => rfl
  | cons p ps ih =>
      rw [List.map_cons, List.map_cons,
        show (mkPeriodEntry p (rankingLookup data p) n).date = p from rfl, ih]

theorem orderedPeriodsDesc_mem (data : List (Nat × List (String × Nat)))
    (p : Nat) : p ∈ orderedPeriodsDesc data ↔ p ∈ data.map (fun x => x.1) := by
  unfold orderedPeriodsDesc
  rw [(sortByKeyDesc_perm _ _).mem_iff, pyUnique_mem]

theorem mem_period_summary (data : List (Nat × List (String × Nat))) (n : Nat)
    (ps : List Nat) (hsub : ∀ p ∈ ps, p ∈ data.map (fun x => x.1))
    (hkeys : (data.map (fun x => x.1)).Nodup)
    (hne : ∀ pr ∈ data, pr.2 ≠ []) :
    ∀ e ∈ ps.map (fun p => mkPeriodEntry p (rankingLookup data p) n),
      ∃ r, (e.date, r) ∈ data ∧ entry_matches e r n := by
  intro e he
  rcases List.mem_map.mp he with ⟨p, hp, rfl⟩
  rcases List.mem_map.mp (hsub p hp) with ⟨pr, hprmem, hfst⟩
  obtain ⟨q, r⟩ := pr
  simp only at hfst
  subst hfst
  have hlk : data.lookup q = some r := lookup_eq_of_mem data hkeys q r hprmem
  have hrne : r ≠ [] := hne (q, r) hprmem
  obtain ⟨top, rest, rfl⟩ : ∃ top rest, r = top :: rest := by
    cases r with
    | nil => exact absurd rfl hrne
    | cons a l => exact ⟨a, l, rfl⟩
  have hrl : rankingLookup data q = top :: rest := by
    simp [rankingLookup, hlk]
  refine ⟨top :: rest, hprmem, top, rest, rfl, ?_, ?_, ?_, ?_, ?_⟩
  · show ((rankingLookup data q).headD ("", 0)).1 = top.1
    rw [hrl]
    rfl
  · show ((rankingLookup data q).headD ("", 0)).2 = top.2
    rw [hrl]
    rfl
  · show String.intercalate ", "
        ((((rankingLookup data q).drop 1).take n).map (fun x => x.1)) = _
    rw [hrl]
    rfl
  · show ((rankingLookup data q).map (fun x => x.2)).sum = _
    rw [hrl]
    simp [List.sum_cons]
  · show (rankingLookup data q).length = rest.length + 1
    rw [hrl]
    rfl

/-- C7 (amended): in both leaderboards each period entry holds the top
author's name and commit count, a `", "`-joined display of the names of the
next ranked authors — the next *four* for months, the next *authors_top* for
years — the period's total commit count and its distinct-author count; periods
are ordered most-recent-first, the month list is truncated to
`max_authors_of_months`, and the year list covers every period. -/
theorem leaderboards_spec (data : List (Nat × List (String × Nat)))
    (max_authors_of_months authors_top : Nat)
    (hkeys : (data.map (fun x => x.1)).Nodup)
    (hne : ∀ pr ∈ data, pr.2 ≠ []) :
    ((render_months_summary data max_authors_of_months).map
        (fun e => e.date)).Pairwise (fun a b => b ≤ a) ∧
      ((render_years_summary data authors_top).map
        (fun e => e.date)).Pairwise (fun a b => b ≤ a) ∧
      (render_months_summary data max_authors_of_months).length ≤
        max_authors_of_months ∧
      (render_years_summary data authors_top).length = data.length ∧
      (∀ e ∈ render_months_summary data max_authors_of_months,
        ∃ r, (e.date, r) ∈ data ∧ entry_matches e r 4) ∧
      (∀ e ∈ render_years_summary data authors_top,
        ∃ r, (e.date, r) ∈ data ∧ entry_matches e r authors_top) := by
  have hdates := sortByKeyDesc_pairwise (fun p => p)
    (pyUnique (data.map (fun x => x.1)))
  refine ⟨?_, ?_, ?_, ?_, ?_, ?_⟩
  · rw [show render_months_summary data max_authors_of_months =
        ((orderedPeriodsDesc data).take max_authors_of_months).map
          (fun p => mkPeriodEntry p (rankingLookup data p) 4) from rfl,
      map_date_mkPeriodEntry]
    exact List.Pairwise.sublist (List.take_sublist _ _) hdates
  · rw [show render_years_summary data authors_top =
        (orderedPeriodsDesc data).map
          (fun p => mkPeriodEntry p (rankingLookup data p) authors_top) from rfl,
      map_date_mkPeriodEntry]
    exact hdates
  · unfold render_months_summary
    rw [List.length_map, List.length_take]
    exact min_le_left _ _
  · unfold render_years_summary
    rw [List.length_map]
    unfold orderedPeriodsDesc
    rw [(sortByKeyDesc_perm _ _).length_eq, pyUnique_eq_self _ hkeys,
      List.length_map]
  · exact mem_period_summary data 4 _
      (fun p hp => (orderedPeriodsDesc_mem data p).mp
        (List.take_subset _ _ hp))
      hkeys hne
  · exact mem_period_summary data authors_top _
      (fun p hp => (orderedPeriodsDesc_mem data p).mp hp)
      hkeys hne

/-- A concrete yearly ranking: one year, six ranked authors, used with
`authors_top = 2`. -/
def exRanking : List (Nat × List (String × Nat)) :=
  [(2024, [("a", 9), ("b", 8), ("c", 7), ("d", 6), ("e", 5), ("f", 4)])]

/-- C7 counterexample: with `authors_top = 2`, the year entry's
`next_top_authors` display holds the next *two* ranked authors (`"b, c"`), not
the next four (`"b, c, d, e"`), so the year leaderboard does not join "the next
four ranked authors" as the claim states. -/
theorem years_next_top_counterexample :
    ((render_years_summary exRanking 2).map (fun e => e.next_top_authors)) =
        ["b, c"] ∧
      ("b, c" : String) ≠ "b, c, d, e" := by
  constructor
  · rfl
  · decide

theorem leaderboards_spec_witness :
    ((render_months_summary exRanking 3).map
        (fun e => e.date)).Pairwise (fun a b => b ≤ a) :=
  (leaderboards_spec exRanking 3 2 (by decide) (by decide)).1

/-! ## Tags page (`render_tags_page`) -/

/-- One underlying tag record (`self.git_repo_statistics.tags[tag]`): a date,
a commit count, and — when the tag contains commits — a per-author commit-count
dictionary.  A missing `'authors'` key is `none`. -/
structure TagRec where
  date : Int
  commits : Nat
  authors : Option (List (String × Nat))
deriving Repr, DecidableEq

/-- One rendered entry of `project_data['tags']`. -/
structure TagDict where
  name : String
  date : Int
  commits_count : Nat
  authors : String
deriving Repr, DecidableEq

/-- Modelled from the spec: `tools.sort_keys_by_value_of_key(tags, 'date',
reverse=True)` lives in `tools/__init__.py`, which is not part of the analysed
source; per the spec it yields the tags "sorted by tag date descending".
(The dictionary is carried as an association list, a key and its record
together.) -/
def sorted_tags_by_date_desc (tags : List (String × TagRec)) :
    List (String × TagRec) :=
  sortByKeyDesc (fun tr => tr.2.date) tags

/-- The per-tag author listing: author names sorted by commit count
descending (`sorted(authordict.items(), key=lambda kv: kv[1], reverse=True)`),
then walked in `reversed` order, each formatted `'%s (%d)' % (name, count)`
with the count looked up in the tag's author dictionary, joined with `', '`. -/
def format_author_info (ad : List (String × Nat)) : String :=
  let authors_by_commits := (sortByKeyDesc (fun kv => kv.2) ad).map (fun kv => kv.1)
  String.intercalate ", "
    (authors_by_commits.reverse.map
      (fun i => i ++ " (" ++ toString ((ad.lookup i).getD 0) ++ ")"))

/-- The `tag_dict` assembled for one included tag. -/
def mk_tag_dict (tag : String) (trec : TagRec) (ad : List (String × Nat)) :
    TagDict :=
  { name := tag
    date := trec.date
    commits_count := trec.commits
    authors := format_author_info ad }

/-- The loop's break test: `'max_recent_tags' in self.configuration and
self.configuration['max_recent_tags'] <= len(project_data['tags'])`. -/
def tag_break (max_recent_tags : Option Nat) (count : Nat) : Bool :=
  match max_recent_tags with
  | some m => decide (m ≤ count)
  | none => false

/-- The body of the tag loop in `render_tags_page`: walk the date-sorted tags,
stop when the configured maximum is reached, skip tags with no `'authors'`
key, append a `tag_dict` otherwise. -/
def collect_tags (max_recent_tags : Option Nat) :
    List (String × TagRec) → List TagDict → List TagDict
  | [], acc => acc
  | (tag, trec) :: rest, acc =>
      if tag_break max_recent_tags acc.length then acc
      else
        match trec.authors with
        | some ad => collect_tags max_recent_tags rest (acc ++ [mk_tag_dict tag trec ad])
        | none => collect_tags max_recent_tags rest acc

/-- Embedding of `render_tags_page` (the `project_data['tags']` list it
renders). -/
def render_tags_page (tags : List (String × TagRec))
    (max_recent_tags : Option Nat) : List TagDict :=
  collect_tags max_recent_tags (sorted_tags_by_date_desc tags) []

/-- The spec-side shape of the untruncated tag list: the date-sorted tags that
have an `'authors'` key, each rendered. -/
def tags_listing_of (l : List (String × TagRec)) : List TagDict :=
  l.filterMap (fun tr => tr.2.authors.map (fun ad => mk_tag_dict tr.1 tr.2 ad))

theorem collect_tags_nil (max_recent_tags : Option Nat) (acc : List TagDict) :
    collect_tags max_recent_tags [] acc = acc := rfl

theorem collect_tags_cons (max_recent_tags : Option Nat) (tag : String)
    (trec : TagRec) (rest : List (String × TagRec)) (acc : List TagDict) :
    collect_tags max_recent_tags ((tag, trec) :: rest) acc =
      if tag_break max_recent_tags acc.length then acc
      else
        match trec.authors with
        | some ad =>
            collect_tags max_recent_tags rest (acc ++ [mk_tag_dict tag trec ad])
        | none => collect_tags max_recent_tags rest acc := rfl

theorem collect_tags_cons_break (max_recent_tags : Option Nat) (tag : String)
    (trec : TagRec) (rest : List (String × TagRec)) (acc : List TagDict)
    (h : tag_break max_recent_tags acc.length = true) :
    collect_tags max_recent_tags ((tag, trec) :: rest) acc = acc := by
  rw [collect_tags_cons, if_pos h]

theorem collect_tags_cons_some (max_recent_tags : Option Nat) (tag : String)
    (trec : TagRec) (rest : List (String × TagRec)) (acc : List TagDict)
    (ad : List (String × Nat)) (hau : trec.authors = some ad)
    (h : tag_break max_recent_tags acc.length = false) :
    collect_tags max_recent_tags ((tag, trec) :: rest) acc =
      collect_tags max_recent_tags rest (acc ++ [mk_tag_dict tag trec ad]) := by
  rw [collect_tags_cons, if_neg (by simp [h]), hau]

theorem collect_tags_cons_skip (max_recent_tags : Option Nat) (tag : String)
    (trec : TagRec) (rest : List (String × TagRec)) (acc : List TagDict)
    (hau : trec.authors = none)
    (h : tag_break max_recent_tags acc.length = false) :
    collect_tags max_recent_tags ((tag, trec) :: rest) acc =
      collect_tags max_recent_tags rest acc := by
  rw [collect_tags_cons, if_neg (by simp [h]), hau]

theorem collect_tags_none (l : List (String × TagRec)) :
    ∀ acc, collect_tags none l acc = acc ++ tags_listing_of l := by
  induction l with
  | nil => intro acc; simp [collect_tags_nil, tags_listing_of]
  | cons tr rest ih =>
      intro acc
      obtain ⟨tag, trec⟩ := tr
      cases hau : trec.authors with
      | some ad =>
          rw [collect_tags_cons_some none tag trec rest acc ad hau rfl, ih]
          simp [tags_listing_of, List.filterMap_cons, hau]
      | none =>
          rw [collect_tags_cons_skip none tag trec rest acc hau rfl, ih]
          simp [tags_listing_of, List.filterMap_cons, hau]

theorem collect_tags_some (m : Nat) (l : List (String × TagRec)) :
    ∀ acc, collect_tags (some m) l acc =
      acc ++ (tags_listing_of l).take (m - acc.length) := by
  induction l with
  | nil => intro acc; simp [collect_tags_nil, tags_listing_of]
  | cons tr rest ih =>
      intro acc
      obtain ⟨tag, trec⟩ := tr
      by_cases hbr : m ≤ acc.length
      · rw [collect_tags_cons_break (some m) tag trec rest acc
          (by simp [tag_break]; omega)]
        have h0 : m - acc.length = 0 := by omega
        rw [h0]
        simp
      · have hfalse : tag_break (some m) acc.length = false := by
          simp [tag_break]; omega
        cases hau : trec.authors with
        | some ad =>
            rw [collect_tags_cons_some (some m) tag trec rest acc ad hau hfalse, ih]
            have hlist : tags_listing_of ((tag, trec) :: rest) =
                mk_tag_dict tag trec ad :: tags_listing_of rest := by
              simp [tags_listing_of, List.filterMap_cons, hau]
            rw [hlist]
            have hm : m - acc.length = (m - (acc ++ [mk_tag_dict tag trec ad]).length) + 1 := by
              simp only [List.length_append, List.length_singleton]
              omega
            rw [hm, List.take_succ_cons]
            simp
        | none =>
            rw [collect_tags_cons_skip (some m) tag trec rest acc hau hfalse, ih]
            have hlist : tags_listing_of ((tag, trec) :: rest) =
                tags_listing_of rest := by
              simp [tags_listing_of, List.filterMap_cons, hau]
            rw [hlist]

theorem render_tags_page_none (tags : List (String × TagRec)) :
    render_tags_page tags none = tags_listing_of (sorted_tags_by_date_desc tags) := by
  unfold render_tags_page
  rw [collect_tags_none]
  simp

theorem render_tags_page_some (tags : List (String × TagRec)) (m : Nat) :
    render_tags_page tags (some m) =
      (tags_listing_of (sorted_tags_by_date_desc tags)).take m := by
  unfold render_tags_page
  rw [collect_tags_some]
  simp

theorem map_eq_map_of_mem {α β : Type} (f g : α → β) :
    ∀ l : List α, (∀ a ∈ l, f a = g a) → l.map f = l.map g := by
  intro l
  induction l with
  | nil => intro _; rfl
  | cons a l ih =>
      intro h
      rw [List.map_cons, List.map_cons, h a (by simp), ih (fun b hb => h b (by simp [hb]))]

theorem format_author_info_spec (ad : List (String × Nat))
    (hnd : (ad.map (fun kv => kv.1)).Nodup) :
    ∃ l : List (String × Nat), l.Perm ad ∧
      (l.map (fun kv => kv.2)).Pairwise (fun a b => a ≤ b) ∧
      format_author_info ad = String.intercalate ", "
        (l.map (fun kv => kv.1 ++ " (" ++ toString kv.2 ++ ")")) := by
  have hperm : ((sortByKeyDesc (fun kv : String × Nat => kv.2) ad).reverse).Perm ad :=
    (List.reverse_perm _).trans (sortByKeyDesc_perm _ _)
  refine ⟨(sortByKeyDesc (fun kv => kv.2) ad).reverse, hperm, ?_, ?_⟩
  · rw [List.pairwise_map, List.pairwise_reverse]
    exact sortByKeyDesc_pairwise (fun kv => kv.2) ad
  · show String.intercalate ", "
        (((sortByKeyDesc (fun kv : String × Nat => kv.2) ad).map
          (fun kv => kv.1)).reverse.map
            (fun i => i ++ " (" ++ toString ((ad.lookup i).getD 0) ++ ")")) = _
    rw [← List.map_reverse, List.map_map]
    apply congrArg (String.intercalate ", ")
    apply map_eq_map_of_mem
    intro kv hkv
    have hmem : (kv.1, kv.2) ∈ ad := hperm.subset hkv
    have hlk : ad.lookup kv.1 = some kv.2 :=
      lookup_eq_of_mem ad hnd kv.1 kv.2 hmem
    show kv.1 ++ " (" ++ toString ((ad.lookup kv.1).getD 0) ++ ")" = _
    rw [hlk]
    rfl

theorem pairwise_filterMap {α β : Type} (f : α → Option β) (R : α → α → Prop)
    (S : β → β → Prop)
    (hf : ∀ a b x y, R a b → f a = some x → f b = some y → S x y) :
    ∀ l : List α, l.Pairwise R → (l.filterMap f).Pairwise S := by
  intro l hl
  induction hl with
  | nil => simp
  | @cons a l ha _ ih =>
      cases hfa : f a with
      | none => rw [List.filterMap_cons_none hfa]; exact ih
      | some x =>
          rw [List.filterMap_cons_some hfa]
          refine List.pairwise_cons.mpr ⟨?_, ih⟩
          intro y hy
          rcases List.mem_filterMap.mp hy with ⟨b, hb, hfb⟩
          exact hf a b x y (ha b hb) hfa hfb

theorem tags_listing_pairwise (tags : List (String × TagRec)) :
    (tags_listing_of (sorted_tags_by_date_desc tags)).Pairwise
      (fun a b => b.date ≤ a.date) := by
  apply pairwise_filterMap _ (fun a b : String × TagRec => b.2.date ≤ a.2.date)
  · intro a b x y hR hfa hfb
    rcases Option.map_eq_some'.mp hfa with ⟨adx, _, hx⟩
    rcases Option.map_eq_some'.mp hfb with ⟨ady, _, hy⟩
    rw [← hx, ← hy]
    exact hR
  · exact sortByKeyDesc_pairwise (fun tr => tr.2.date) tags

/-- C6 (amended): a tag with no associated commits (no authors record) is
excluded from the rendered tag list; included tags are ordered by tag date
descending and truncated to the configured maximum when one is set; each
included tag's author listing joins the entries `"name (commitCount)"`,
ordered by ascending commit count (most prolific author last), with the
separator `", "` (comma and space) — not a single space. -/
theorem render_tags_page_spec (tags : List (String × TagRec))
    (max_recent_tags : Option Nat) :
    (render_tags_page tags max_recent_tags).Pairwise (fun a b => b.date ≤ a.date) ∧
      (∀ m, max_recent_tags = some m →
        (render_tags_page tags max_recent_tags).length ≤ m) ∧
      (∀ d ∈ render_tags_page tags max_recent_tags,
        ∃ t trec ad, (t, trec) ∈ tags ∧ trec.authors = some ad ∧
          d = mk_tag_dict t trec ad) ∧
      (max_recent_tags = none →
        ∀ t trec ad, (t, trec) ∈ tags → trec.authors = some ad →
          mk_tag_dict t trec ad ∈ render_tags_page tags max_recent_tags) ∧
      (∀ t trec ad, trec.authors = some ad →
        (ad.map (fun kv => kv.1)).Nodup →
        ∃ l : List (String × Nat), l.Perm ad ∧
          (l.map (fun kv => kv.2)).Pairwise (fun a b => a ≤ b) ∧
          (mk_tag_dict t trec ad).authors = String.intercalate ", "
            (l.map (fun kv => kv.1 ++ " (" ++ toString kv.2 ++ ")"))) := by
  have hsub : ∀ d ∈ render_tags_page tags max_recent_tags,
      d ∈ tags_listing_of (sorted_tags_by_date_desc tags) := by
    intro d hd
    cases max_recent_tags with
    | none => rw [render_tags_page_none] at hd; exact hd
    | some m => rw [render_tags_page_some] at hd; exact List.take_subset _ _ hd
  refine ⟨?_, ?_, ?_, ?_, ?_⟩
  · cases max_recent_tags with
    | none =>
        rw [render_tags_page_none]
        exact tags_listing_pairwise tags
    | some m =>
        rw [render_tags_page_some]
        exact List.Pairwise.sublist (List.take_sublist _ _) (tags_listing_pairwise tags)
  · intro m hm
    subst hm
    rw [render_tags_page_some, List.length_take]
    exact min_le_left _ _
  · intro d hd
    rcases List.mem_filterMap.mp (hsub d hd) with ⟨tr, htr, hf⟩
    rcases Option.map_eq_some'.mp hf with ⟨ad, hau, hmk⟩
    refine ⟨tr.1, tr.2, ad, ?_, hau, hmk.symm⟩
    exact (sortByKeyDesc_perm _ _).subset htr
  · intro hm t trec ad hmem hau
    subst hm
    rw [render_tags_page_none]
    refine List.mem_filterMap.mpr ⟨(t, trec), ?_, ?_⟩
    · exact ((sortByKeyDesc_perm (fun tr => tr.2.date) tags).mem_iff).mpr hmem
    · rw [show (t, trec).2.authors = trec.authors from rfl, hau]
      rfl
  · intro t trec ad _ hnd
    exact format_author_info_spec ad hnd

/-- A concrete tag input: one tag, two authors with 1 and 2 commits. -/
def exTags : List (String × TagRec) :=
  [("v1", ⟨0, 3, some [("a", 1), ("b", 2)]⟩)]

/-- C6 counterexample: the author listing of the rendered tag is
`"a (1), b (2)"` — entries joined with `", "` — which differs from the
space-joined listing `"a (1) b (2)"` the claim describes. -/
theorem tags_listing_join_counterexample :
    ((render_tags_page exTags none).map (fun d => d.authors)) = ["a (1), b (2)"] ∧
      ("a (1), b (2)" : String) ≠ "a (1) b (2)" := by
  constructor
  · rfl
  · decide

theorem render_tags_page_spec_witness :
    (render_tags_page exTags (some 1)).length ≤ 1 :=
  ((render_tags_page_spec exTags (some 1)).2.1) 1 rfl

/-! ## Landing-page alias creation in `create` -/

/-- Embedding of `os.symlink(target, link)` over an explicit set of existing
paths: creating a path that already exists raises `FileExistsError`, otherwise
the link is added. -/
def os_symlink (fs : List String) (target link : String) :
    Except PyError (List String) :=
  if link ∈ fs then .error .FileExistsError else .ok (link :: fs)

/-- Embedding of the alias-creation step of `create`:
`os.symlink("general.html", os.path.join(path, "index.html"))` wrapped in
`try ... except FileExistsError: pass`; other errors would propagate. -/
def create_index_alias (fs : List String) (path : String) :
    Except PyError (List String) :=
  match os_symlink fs "general.html" (path ++ "/index.html") with
  | .ok fs2 => .ok fs2
  | .error .FileExistsError => .ok fs
  | .error e => .error e

/-- C8: creating the landing-page alias succeeds whether or not
`index.html` already exists under the output path: an existing alias is left
in place (the `FileExistsError` is swallowed), a missing one is created, and
in both cases the pipeline step returns successfully. -/
theorem create_index_alias_idempotent (fs : List String) (path : String) :
    create_index_alias fs path =
      .ok (if (path ++ "/index.html") ∈ fs then fs
           else (path ++ "/index.html") :: fs) := by
  unfold create_index_alias os_symlink
  by_cases h : (path ++ "/index.html") ∈ fs
  · rw [if_pos h, if_pos h]
  · rw [if_neg h, if_neg h]

/-! ## The `commits_by_year_month.dat` artifact in `create` -/

/-- A month bucket of the monthly commit history. -/
structure YearMonth where
  year : Nat
  month : Nat
deriving Repr, DecidableEq

/-- Embedding of the filtering in `create`:
`current_year_monthly_activity.loc[...index.year == current_year]` with
`current_year = datetime.date.today().year` — only rows of the wall-clock
year survive into `commits_by_year_month.dat`. -/
def current_year_monthly_activity (history : List (YearMonth × Nat))
    (today_year : Nat) : List (YearMonth × Nat) :=
  history.filter (fun row => row.1.year == today_year)

/-- C10: the rows written to `commits_by_year_month.dat` are exactly the
monthly rows whose month falls in the generation-time calendar year; rows of
every other year are dropped, and the artifact's contents genuinely depend on
the wall-clock year of the run. -/
theorem commits_by_year_month_filter (history : List (YearMonth × Nat))
    (today_year : Nat) :
    (∀ row ∈ current_year_monthly_activity history today_year,
        row.1.year = today_year) ∧
      (∀ row ∈ history, row.1.year = today_year →
        row ∈ current_year_monthly_activity history today_year) ∧
      (∀ row ∈ history, row.1.year ≠ today_year →
        row ∉ current_year_monthly_activity history today_year) ∧
      (∃ h : List (YearMonth × Nat), ∃ y1 y2 : Nat,
        current_year_monthly_activity h y1 ≠ current_year_monthly_activity h y2) := by
  refine ⟨?_, ?_, ?_, ?_⟩
  · intro row hr
    exact eq_of_beq (List.mem_filter.mp hr).2
  · intro row hr hy
    exact List.mem_filter.mpr ⟨hr, by simp [hy]⟩
  · intro row _ hy habs
    exact hy (eq_of_beq (List.mem_filter.mp habs).2)
  · exact ⟨[(⟨2020, 5⟩, 7)], 2020, 2021, by decide⟩

theorem commits_by_year_month_filter_witness :
    ((⟨2020, 5⟩, 7) : YearMonth × Nat) ∈
      current_year_monthly_activity [(⟨2020, 5⟩, 7), (⟨2019, 1⟩, 3)] 2020 :=
  (commits_by_year_month_filter [(⟨2020, 5⟩, 7), (⟨2019, 1⟩, 3)] 2020).2.1
    (⟨2020, 5⟩, 7) (by decide) (by decide)
